import Mathlib

/-!
Verification of the evolutionary chain optimiser
(`fedot/core/composer/optimisers/gp_optimiser.py`).

The optimiser manipulates populations of chain individuals; the only fields
it reads from an individual are its single-objective fitness (a float,
modelled as a rational) and its node count (`len(ind.nodes)`).  Operator
modules imported by the optimiser (selection, crossover, mutation,
inheritance, `gp_operators`, the composition timer) are not part of the
sources under verification; where a property depends on them they are
modelled from the specification and marked as such.
-/

/-- A chain individual, reduced to the fields the optimiser reads:
its single-objective fitness and its node count (`len(ind.nodes)`). -/
structure Individual where
  fitness : ℚ
  numNodes : ℕ
deriving DecidableEq, Repr

/-- Modelled from the spec: `is_equal_fitness` lives in
`fedot.core.composer.optimisers.gp_operators`, which is not under the
verified sources; the specification fixes its semantics as exact numeric
equality of the two fitness values ("numerically unchanged (within exact
equality, not epsilon)"). -/
def is_equal_fitness (first_fitness second_fitness : ℚ) : Bool :=
  decide (first_fitness = second_fitness)

/-- Python's `min(xs, key=f)`: the first element attaining the minimal key;
`none` on an empty list, where Python raises `ValueError`. -/
def pyMinBy {α β : Type} [LinearOrder β] (f : α → β) : List α → Option α
  | [] => none
  | x :: xs => some (xs.foldl (fun acc y => if f y < f acc then y else acc) x)

/-- Modelled from the spec: the genetic evolutionary scheme enumeration from
`fedot.core.composer.optimisers.inheritance` (generational vs steady-state),
which is not under the verified sources. -/
inductive GeneticSchemeTypesEnum where
  | generational
  | steady_state
deriving DecidableEq, Repr

/-- `GPChainOptimiser.with_elitism` (lines 212-217): elitism is off in
multi-objective mode and otherwise requires a population of more than one
individual. -/
def with_elitism (multi_objective : Bool) (pop_size : ℕ) : Bool :=
  if multi_objective then false else decide (pop_size > 1)

/-- `GPChainOptimiser.num_of_inds_in_next_pop` (lines 219-222): the size the
inheritance operator is asked for — one slot below the configured population
size when elitism is active in single-objective mode. -/
def num_of_inds_in_next_pop (multi_objective : Bool) (pop_size : ℕ) : ℕ :=
  if with_elitism multi_objective pop_size && !multi_objective then pop_size - 1
  else pop_size

/-- Lines 181-186 of `optimise`: the population right after the
`inheritance` call (whose result is `inherited`; the inheritance module is
not under the verified sources and is abstracted by that argument), followed
by the elitism append of the deep-copied previous best individual. -/
def population_after_inheritance (multi_objective : Bool) (pop_size : ℕ)
    (inherited : List Individual) (prev_best : Individual) : List Individual :=
  if !multi_objective && with_elitism multi_objective pop_size then
    inherited ++ [prev_best]
  else inherited

/-- `GPChainOptimiser.update_stagnation_counter` (lines 224-234),
single-objective branch: zero on the first generation or after an
improvement, otherwise the previous counter plus one when the previous best
fitness equals the current best fitness. -/
def update_stagnation_counter (generation_num : ℕ)
    (prev_best_fitness best_fitness : ℚ) (prev_counter : ℕ) : ℕ :=
  if generation_num ≠ 0 ∧ is_equal_fitness prev_best_fitness best_fitness then
    prev_counter + 1
  else 0

/-- `GPChainOptimiser.max_depth_recount` (lines 242-245): the depth bound
grows by one exactly when the stagnation counter equals the configured step
and the increased bound still fits under the requirement's hard maximum. -/
def max_depth_recount (num_of_gens_without_improvements depth_increase_step
    max_depth requirements_max_depth : ℕ) : ℕ :=
  if num_of_gens_without_improvements = depth_increase_step ∧
      max_depth + 1 ≤ requirements_max_depth then
    max_depth + 1
  else max_depth

/-- `GPChainOptimiser.reproduce` (lines 271-286): crossover when a (truthy)
second individual is supplied, otherwise the lone parent passes through
unchanged; mutation is applied to every resulting offspring.  The crossover
and mutation modules are not under the verified sources and are abstracted
by the two function arguments. -/
def reproduce (crossoverFn : Individual → Individual → List Individual)
    (mutationFn : Individual → Individual)
    (selected_individual_first : Individual)
    (selected_individual_second : Option Individual) : List Individual :=
  (match selected_individual_second with
    | some s => crossoverFn selected_individual_first s
    | none => [selected_individual_first]).map mutationFn

/-- The reproduction pairing loop of `optimise` (lines 171-175):
`for parent_num in range(0, len(selected_individuals), 2)` the body calls
`reproduce(selected[parent_num], selected[parent_num + 1])`; on an
odd-length list the final iteration's access `selected[parent_num + 1]` is
out of range and raises `IndexError`, modelled as `none`. -/
def reproduction_loop (repro : Individual → Option Individual → List Individual) :
    List Individual → Option (List Individual)
  | [] => some []
  | [_] => none
  | x :: y :: rest =>
      (reproduction_loop repro rest).map (fun l => repro x (some y) ++ l)

/-- `GPChainOptimiser.offspring_size` (lines 311-317).  Python's
`not offspring_rate` treats the float `0.0` as falsy, so a zero rate falls
back to the default `0.5`; floats are modelled as rationals and `math.ceil`
as the rational ceiling. -/
def offspring_size (genetic_scheme_type : GeneticSchemeTypesEnum)
    (pop_size : ℕ) (offspring_rate : ℚ) : ℤ :=
  let default_offspring_rate : ℚ :=
    if offspring_rate = 0 then 1 / 2 else offspring_rate
  if genetic_scheme_type = GeneticSchemeTypesEnum.steady_state then
    ⌈(pop_size : ℚ) * default_offspring_rate⌉
  else (pop_size : ℤ) - 1

/-- `GPChainOptimiser.result_individual` (lines 319-328): in
single-objective mode the evolved best is replaced by the best
single-operator baseline when the latter's fitness is less than or equal;
in multi-objective mode the archive (of abstract type) is returned. -/
def result_individual {A : Type} (multi_objective add_single_model_chains : Bool)
    (best_individual best_single_model : Individual) (archive : A) :
    Individual ⊕ A :=
  if !multi_objective then
    if add_single_model_chains ∧
        best_single_model.fitness ≤ best_individual.fitness then
      Sum.inl best_single_model
    else Sum.inl best_individual
  else Sum.inr archive

/-- The attribute names required of the chain class
(`gp_optimiser.py` line 109). -/
def necessary_attrs : List String :=
  ["add_node", "root_node", "replace_node_with_parents", "update_node",
   "node_childs"]

/-- The initial chain argument of the constructor: Python's `None`, a single
chain object, or a list of chains. -/
inductive InitialChain where
  | none
  | single (ind : Individual)
  | ofList (l : List Individual)
deriving DecidableEq, Repr

/-- The constructor state the later claims read: the (defaulted) population
size and `self.population`, where Python's `None` is `Option.none`. -/
structure InitState where
  pop_size : ℕ
  population : Option (List Individual)
deriving DecidableEq, Repr

/-- `GPChainOptimiser.__init__` (lines 84-121) reduced to the decisions the
claims depend on: the reflective capability check of lines 109-113 (the
raised `AttributeError` is `Except.error`; `chain_attrs` is the set of
attribute names `hasattr` finds on the chain class), the `pop_size` default
of lines 115-116 (a falsy size, i.e. 0, becomes 10), and the population
setup of lines 118-121: a truthy non-list chain is deep-copied `pop_size`
times, otherwise `self.population = initial_chain` verbatim — a list (empty
or not) is stored as-is and `None` stays `None`.  Nothing before the
capability check can raise. -/
def gp_optimiser_init (chain_attrs : List String) (pop_size : ℕ)
    (initial_chain : InitialChain) : Except String InitState :=
  if !(necessary_attrs.all (fun a => chain_attrs.contains a)) then
    Except.error "Object chain_class has no required attributes for gp_optimizer"
  else
    let ps := if pop_size = 0 then 10 else pop_size
    Except.ok
      ⟨ps,
        match initial_chain with
        | InitialChain.single i => some (List.replicate ps i)
        | InitialChain.ofList l => some l
        | InitialChain.none => none⟩

/-- Steps the start of `optimise` can execute, for tracing which of them a
run reaches. -/
inductive OptStep where
  | regenerate
  | evaluate
  | addHistory
  | bestOf (n : ℕ)
  | minValueError
deriving DecidableEq, Repr

/-- The documented contract of `np.argsort(keys)` with its default
quicksort kind: some permutation of the index range that lists the keys in
non-decreasing order.  numpy does not specify the order among equal keys
for this kind, so every list satisfying this predicate is a legal output. -/
def IsArgsortOf (keys : List ℚ) (sort_inds : List ℕ) : Prop :=
  List.Perm sort_inds (List.range keys.length) ∧
  List.Sorted (fun i j => keys.getD i 0 ≤ keys.getD j 0) sort_inds

/-- The key-then-original-position lexicographic order on indices: sorting
by it is exactly a stable sort of the indices by key.  This is one legal
`np.argsort` tie order (`IsArgsortOf`), the one a stable kind would
produce — the default quicksort kind guarantees no particular tie order. -/
def keyRank (keys : List ℚ) (i j : ℕ) : Prop :=
  keys.getD i 0 < keys.getD j 0 ∨ (keys.getD i 0 = keys.getD j 0 ∧ i ≤ j)

instance keyRank.decidableRel (keys : List ℚ) : DecidableRel (keyRank keys) :=
  fun i j => by unfold keyRank; exact inferInstance

instance keyRank.isTotal (keys : List ℚ) : IsTotal ℕ (keyRank keys) where
  total i j := by
    rcases lt_trichotomy (keys.getD i 0) (keys.getD j 0) with h | h | h
    · exact Or.inl (Or.inl h)
    · rcases Nat.le_total i j with hij | hij
      · exact Or.inl (Or.inr ⟨h, hij⟩)
      · exact Or.inr (Or.inr ⟨h.symm, hij⟩)
    · exact Or.inr (Or.inl h)

instance keyRank.isTrans (keys : List ℚ) : IsTrans ℕ (keyRank keys) where
  trans a b c hab hbc := by
    rcases hab with h1 | ⟨h1, h1le⟩ <;> rcases hbc with h2 | ⟨h2, h2le⟩
    · exact Or.inl (h1.trans h2)
    · exact Or.inl (h2 ▸ h1)
    · exact Or.inl (h1 ▸ h2)
    · exact Or.inr ⟨h1.trans h2, le_trans h1le h2le⟩

/-- One legal model of `np.argsort(keys)`: the stable argsort, realised as
the sort by `keyRank`.  It satisfies `IsArgsortOf`, but so do other tie
orders, and the default quicksort kind promises none in particular. -/
def argsort (keys : List ℚ) : List ℕ :=
  List.insertionSort (keyRank keys) (List.range keys.length)

/-- `GPChainOptimiser.simpler_equivalents_of_best_ind` (lines 259-269) with
the current population as the candidate list (how the optimiser's own calls
resolve it) and the `np.argsort(fitnesses)` output abstracted as the
`sort_inds` parameter, since numpy does not pin down its tie order: iterate
over `sort_inds[1:]` and collect, as the insertion-ordered association list
standing for the Python dict, each index whose individual has fitness equal
to the best's and strictly fewer nodes, mapped to that node count. -/
def simpler_equivalents_with (sort_inds : List ℕ) (pop : List Individual)
    (best_ind : Individual) : List (ℕ × ℕ) :=
  sort_inds.tail.filterMap (fun i =>
    match pop[i]? with
    | some ind =>
        if is_equal_fitness best_ind.fitness ind.fitness ∧
            ind.numNodes < best_ind.numNodes then
          some (i, ind.numNodes)
        else none
    | none => none)

/-- `simpler_equivalents_with` at the stable tie order `argsort`. -/
def simpler_equivalents_of_best_ind (pop : List Individual)
    (best_ind : Individual) : List (ℕ × ℕ) :=
  simpler_equivalents_with (argsort (pop.map (fun ind => ind.fitness))) pop
    best_ind

/-- `GPChainOptimiser.get_best_individual` (lines 247-257) on the path the
optimiser uses (candidate list = current population), with the
`np.argsort` output abstracted as `sort_inds`: `min` by fitness, then —
when the simpler-equivalents dict is nonempty —
`min(equivalents, key=equivalents.get)` picks the first index with the
fewest nodes and the result is `individuals[best_candidate_id]` (`none`
would be Python's `IndexError`, shown unreachable).  Python's `min` raises
`ValueError` on an empty population, modelled as `none`. -/
def get_best_individual_with (sort_inds : List ℕ) (pop : List Individual) :
    Option Individual :=
  match pyMinBy (fun ind => ind.fitness) pop with
  | none => none
  | some best_ind =>
      match pyMinBy (fun p => p.2)
          (simpler_equivalents_with sort_inds pop best_ind) with
      | none => some best_ind
      | some p => pop[p.1]?

/-- `get_best_individual_with` at the stable tie order `argsort`. -/
def get_best_individual (pop : List Individual) : Option Individual :=
  get_best_individual_with (argsort (pop.map (fun ind => ind.fitness))) pop

/-- The best fitness a population reports through `get_best_individual`. -/
def bestFitness (pop : List Individual) : Option ℚ :=
  (get_best_individual pop).map (fun ind => ind.fitness)

/-- The start of `optimise` (lines 123-139) for the single-objective
configuration without single-model baselines, instrumented with the steps it
executes: regeneration happens only when the population is `None`
(line 124); then evaluation (line 135) and the history append (line 137)
run on whatever population is present; `log_info_about_best` (line 139)
computes `get_best_individual(self.population)`, where `min` of an empty
population raises `ValueError`. -/
def optimise_start (st : InitState) (fresh : List Individual) :
    List OptStep × Option Individual :=
  let popSteps :=
    match st.population with
    | none => (fresh, [OptStep.regenerate])
    | some p => (p, ([] : List OptStep))
  let pop := popSteps.1
  let steps := popSteps.2 ++ [OptStep.evaluate, OptStep.addHistory]
  match get_best_individual pop with
  | some b => (steps ++ [OptStep.bestOf pop.length], some b)
  | none => (steps ++ [OptStep.minValueError], none)

/-- The generational loop of `optimise` (lines 141-193): with `gensLeft`
iterations of `range(num_of_generations - 1)` remaining and `gen` the
current generation number, each iteration first builds the next population
(lines 144-186: stagnation and depth bookkeeping, regularization, selection,
reproduction, offspring evaluation, inheritance and the elitism append —
abstracted as `genStep` because the operator modules are not under the
verified sources), then appends it to the history (line 188), and only then
evaluates the wall-clock budget check (line 192), breaking at the
generation boundary. -/
def optimise_loop {α : Type} (genStep : ℕ → List α → List α)
    (timeUp : ℕ → Bool) :
    ℕ → ℕ → List α → List (List α) → List α × List (List α)
  | 0, _, pop, hist => (pop, hist)
  | gensLeft + 1, gen, pop, hist =>
      let newPop := genStep gen pop
      let histNext := hist ++ [newPop]
      if timeUp gen then (newPop, histNext)
      else optimise_loop genStep timeUp gensLeft (gen + 1) newPop histNext

/-- The populations produced by `c` consecutive complete generation steps,
starting at generation number `gen` from population `pop`. -/
def gen_trace {α : Type} (genStep : ℕ → List α → List α) :
    ℕ → ℕ → List α → List (List α)
  | 0, _, _ => []
  | c + 1, gen, pop =>
      genStep gen pop :: gen_trace genStep c (gen + 1) (genStep gen pop)

/-- Helper: the pairing loop fails with an index error on every odd-length
selection, whatever the reproduction function is. -/
theorem reproduction_loop_odd_eq_none
    (repro : Individual → Option Individual → List Individual) :
    ∀ sel : List Individual, sel.length % 2 = 1 →
      reproduction_loop repro sel = none
  | [], h => by simp at h
  | [_], _ => rfl
  | x :: y :: rest, h => by
      have hrest : rest.length % 2 = 1 := by
        simp only [List.length_cons] at h
        omega
      simp [reproduction_loop, reproduction_loop_odd_eq_none repro rest hrest]

/-- C1: whatever the inheritance operator returns, as long as it honours its
requested size `num_of_inds_in_next_pop`, the population after the
inheritance step of `optimise` — including the elitism append of the prior
best when elitism is active — has length exactly the configured population
size. -/
theorem population_size_after_inherit (multi_objective : Bool) (pop_size : ℕ)
    (inherited : List Individual) (prev_best : Individual)
    (hlen : inherited.length = num_of_inds_in_next_pop multi_objective pop_size) :
    (population_after_inheritance multi_objective pop_size inherited prev_best).length
      = pop_size := by
  unfold population_after_inheritance
  unfold num_of_inds_in_next_pop at hlen
  cases multi_objective with
  | true => simpa [with_elitism] using hlen
  | false =>
      by_cases hps : pop_size > 1 <;>
        simp [with_elitism, hps, List.length_append] at hlen ⊢ <;> omega

/-- Witness for C1: a two-individual configuration with elitism active. -/
theorem population_size_after_inherit_witness :
    (population_after_inheritance false 2 [⟨1, 1⟩] ⟨0, 1⟩).length = 2 :=
  population_size_after_inherit false 2 [⟨1, 1⟩] ⟨0, 1⟩ (by decide)

/-- C3: with `depth_increase_step = 3`, three consecutive stagnant
generations (non-initial, best fitness exactly unchanged) drive the counter
from 0 to exactly 3; at counter 3 a bound strictly below the hard maximum
increases by exactly one, while a counter different from the step, or a
bound already at the hard maximum, leaves the bound unchanged. -/
theorem auto_depth_increase_spec (f : ℚ) (d D : ℕ)
    (g1 g2 g3 : ℕ) (h1 : g1 ≠ 0) (h2 : g2 ≠ 0) (h3 : g3 ≠ 0)
    (hd : d < D) :
    update_stagnation_counter g3 f f
        (update_stagnation_counter g2 f f
          (update_stagnation_counter g1 f f 0)) = 3 ∧
    max_depth_recount 3 3 d D = d + 1 ∧
    (∀ c, c ≠ 3 → max_depth_recount c 3 d D = d) ∧
    (∀ c, max_depth_recount c 3 D D = D) := by
  refine ⟨?_, ?_, ?_, ?_⟩
  · simp [update_stagnation_counter, is_equal_fitness, h1, h2, h3]
  · have : d + 1 ≤ D := hd
    simp [max_depth_recount, this]
  · intro c hc
    simp [max_depth_recount, hc]
  · intro c
    simp [max_depth_recount]

/-- Witness for C3 at generations 1, 2, 3 with bound 2 under hard maximum 4. -/
theorem auto_depth_increase_spec_witness :
    update_stagnation_counter 3 (1 : ℚ) 1
        (update_stagnation_counter 2 (1 : ℚ) 1
          (update_stagnation_counter 1 (1 : ℚ) 1 0)) = 3 ∧
    max_depth_recount 3 3 2 4 = 2 + 1 ∧
    (∀ c, c ≠ 3 → max_depth_recount c 3 2 4 = 2) ∧
    (∀ c, max_depth_recount c 3 4 4 = 4) :=
  auto_depth_increase_spec 1 2 4 1 2 3 (by decide) (by decide) (by decide)
    (by decide)

/-- C7: `result_individual` returns the archive in multi-objective mode; in
single-objective mode it returns the baseline single-operator model exactly
when baselines are configured and the baseline's fitness is less than or
equal to the evolved best's (ties going to the baseline), and the evolved
best otherwise. -/
theorem result_individual_spec {A : Type} (best_ind best_single : Individual)
    (archive : A) :
    (∀ add_single : Bool,
        result_individual true add_single best_ind best_single archive
          = Sum.inr archive) ∧
    (result_individual false false best_ind best_single archive
        = Sum.inl best_ind) ∧
    (best_single.fitness ≤ best_ind.fitness →
        result_individual false true best_ind best_single archive
          = Sum.inl best_single) ∧
    (best_ind.fitness < best_single.fitness →
        result_individual false true best_ind best_single archive
          = Sum.inl best_ind) := by
  refine ⟨fun add_single => rfl, by simp [result_individual], ?_, ?_⟩
  · intro h
    simp [result_individual, h]
  · intro h
    simp [result_individual, not_le.mpr h]

/-- Witness for C7: a baseline tying with the evolved best is returned. -/
theorem result_individual_spec_witness :
    result_individual false true ⟨1, 3⟩ ⟨1, 1⟩ (0 : ℕ) = Sum.inl ⟨1, 1⟩ :=
  (result_individual_spec ⟨1, 3⟩ ⟨1, 1⟩ (0 : ℕ)).2.2.1 (by norm_num)

/-- C8: the constructor raises `AttributeError` if and only if the chain
class lacks at least one of the required structural capabilities, and in
that case no optimiser state is produced at all — the failure happens at
construction, before `optimise` could run. -/
theorem init_capability_check_spec (chain_attrs : List String) (pop_size : ℕ)
    (initial_chain : InitialChain) :
    (∃ e, gp_optimiser_init chain_attrs pop_size initial_chain
        = Except.error e) ↔
      ∃ a ∈ necessary_attrs, ¬ chain_attrs.contains a := by
  unfold gp_optimiser_init
  by_cases hall : necessary_attrs.all (fun a => chain_attrs.contains a)
  · simp only [hall, Bool.not_true, Bool.false_eq_true, if_false]
    constructor
    · rintro ⟨e, he⟩
      cases he
    · rintro ⟨a, ha, hnc⟩
      exact absurd (List.all_eq_true.mp hall a ha) hnc
  · simp only [Bool.not_eq_true] at hall
    simp only [hall, Bool.not_false, if_true]
    constructor
    · rintro ⟨e, -⟩
      by_contra hno
      push_neg at hno
      have htrue : (necessary_attrs.all fun a => chain_attrs.contains a) = true := by
        rw [List.all_eq_true]
        intro a ha
        exact hno a ha
      rw [hall] at htrue
      exact Bool.false_ne_true htrue
    · intro _
      exact ⟨_, rfl⟩

/-- Witness for C8: a chain class exposing no attribute at all is rejected. -/
theorem init_capability_check_spec_witness :
    ∃ e, gp_optimiser_init [] 5 InitialChain.none = Except.error e :=
  (init_capability_check_spec [] 5 InitialChain.none).mpr
    ⟨"add_node", by decide, by decide⟩

/-- C10: under the generational scheme, the per-generation offspring count is
`pop_size - 1` whatever the offspring rate; under the steady-state scheme it
is the ceiling of `pop_size` times the rate, except that an explicit rate of
zero is silently replaced by the default one half. -/
theorem offspring_size_spec (pop_size : ℕ) (offspring_rate : ℚ) :
    offspring_size GeneticSchemeTypesEnum.generational pop_size offspring_rate
        = (pop_size : ℤ) - 1 ∧
    (offspring_rate ≠ 0 →
      offspring_size GeneticSchemeTypesEnum.steady_state pop_size offspring_rate
        = ⌈(pop_size : ℚ) * offspring_rate⌉) ∧
    offspring_size GeneticSchemeTypesEnum.steady_state pop_size 0
        = ⌈(pop_size : ℚ) * (1 / 2 : ℚ)⌉ := by
  refine ⟨rfl, ?_, ?_⟩
  · intro h
    simp [offspring_size, h]
  · simp [offspring_size]

/-- Witness for C10: a steady-state run with rate one quarter and ten
individuals yields three offspring. -/
theorem offspring_size_spec_witness :
    offspring_size GeneticSchemeTypesEnum.steady_state 10 (1 / 4 : ℚ)
      = ⌈(10 : ℚ) * (1 / 4 : ℚ)⌉ :=
  (offspring_size_spec 10 (1 / 4 : ℚ)).2.1 (by norm_num)

/-- Counterexample to C2 as stated: with a selection of odd length the
reproduction phase of `optimise` does not complete — the pairing loop's
access to the missing partner raises `IndexError` (`none`), even though the
lone individual could have reproduced asexually. -/
theorem odd_selection_raises_index_error :
    reproduction_loop
        (reproduce (fun a b => [a, b]) (fun a => a)) [⟨0, 1⟩] = none := rfl

/-- C2 as amended: whenever selection returns an odd number of individuals,
the reproduction loop of `optimise` fails with an index error rather than
reproducing the final unpaired individual asexually; the mutation-only
asexual path does exist in `reproduce`, but only when its second argument is
absent, which the loop never arranges. -/
theorem odd_selection_amended
    (crossoverFn : Individual → Individual → List Individual)
    (mutationFn : Individual → Individual)
    (sel : List Individual) (hodd : sel.length % 2 = 1) :
    reproduction_loop (reproduce crossoverFn mutationFn) sel = none ∧
    (∀ ind, reproduce crossoverFn mutationFn ind Option.none
        = [mutationFn ind]) := by
  refine ⟨reproduction_loop_odd_eq_none _ sel hodd, fun ind => rfl⟩

/-- Witness for the amended C2 on a three-individual selection. -/
theorem odd_selection_amended_witness :
    reproduction_loop
        (reproduce (fun a b => [a, b]) (fun a => a))
        [⟨0, 1⟩, ⟨1, 2⟩, ⟨2, 3⟩] = none ∧
    (∀ ind, reproduce (fun a b => [a, b]) (fun a => a) ind Option.none
        = [ind]) :=
  odd_selection_amended (fun a b => [a, b]) (fun a => a)
    [⟨0, 1⟩, ⟨1, 2⟩, ⟨2, 3⟩] (by decide)

/-- Counterexample to C9 as stated: an empty initial list passes the
constructor (an empty list is falsy, so it is stored verbatim rather than
replicated, and nothing rejects it), and since it is not `None` the start of
`optimise` does not regenerate it either — the run proceeds through the
evaluation and history-append steps with the empty population and only then
fails, inside the best-individual computation, where Python's `min` of an
empty sequence raises `ValueError`. -/
theorem empty_initial_population_not_rejected :
    gp_optimiser_init necessary_attrs 5 (InitialChain.ofList [])
        = Except.ok ⟨5, some []⟩ ∧
    optimise_start ⟨5, some []⟩ []
        = ([OptStep.evaluate, OptStep.addHistory, OptStep.minValueError],
            none) := by
  exact ⟨rfl, rfl⟩

/-- C9 as amended: an empty initial list population is accepted by the
constructor whenever the chain class has the required capabilities; the
start of `optimise` neither regenerates nor rejects it, runs the evaluation
and the history append on the empty population, and the run only fails
afterwards in the best-individual step, with `min` of an empty sequence. -/
theorem empty_initial_population_fails_late (chain_attrs : List String)
    (pop_size : ℕ) (fresh : List Individual)
    (hattrs : necessary_attrs.all (fun a => chain_attrs.contains a) = true)
    (hps : pop_size ≠ 0) :
    gp_optimiser_init chain_attrs pop_size (InitialChain.ofList [])
        = Except.ok ⟨pop_size, some []⟩ ∧
    optimise_start ⟨pop_size, some []⟩ fresh
        = ([OptStep.evaluate, OptStep.addHistory, OptStep.minValueError],
            none) := by
  refine ⟨?_, rfl⟩
  unfold gp_optimiser_init
  rw [hattrs]
  simp [hps]

/-- Witness for the amended C9. -/
theorem empty_initial_population_fails_late_witness :
    gp_optimiser_init necessary_attrs 7 (InitialChain.ofList [])
        = Except.ok ⟨7, some []⟩ ∧
    optimise_start ⟨7, some []⟩ []
        = ([OptStep.evaluate, OptStep.addHistory, OptStep.minValueError],
            none) :=
  empty_initial_population_fails_late necessary_attrs 7 [] (by decide)
    (by decide)

/-- C6: the generational loop appends each generation's population to the
history before evaluating the budget check, and the check is the only exit
from the loop.  Formally, for every run of the loop: the final history
extends the incoming one by the trace of some number `c` of fully completed
generation steps, the returned population is exactly the last history entry,
evaluated-ness is preserved from the initial population through every
generation step into the returned population, and an early exit (`c`
strictly below the configured iteration count) happens only because the
budget check fired at the boundary of the last completed generation. -/
theorem budget_checked_at_generation_boundary {α : Type}
    (genStep : ℕ → List α → List α) (timeUp : ℕ → Bool)
    (evaluated : α → Prop)
    (hstep : ∀ g p, (∀ x ∈ p, evaluated x) → ∀ x ∈ genStep g p, evaluated x) :
    ∀ (gensLeft gen : ℕ) (pop : List α) (hist : List (List α)),
      hist.getLast? = some pop →
      (∀ x ∈ pop, evaluated x) →
      ∃ c ≤ gensLeft,
        (optimise_loop genStep timeUp gensLeft gen pop hist).2
            = hist ++ gen_trace genStep c gen pop ∧
        (optimise_loop genStep timeUp gensLeft gen pop hist).2.getLast?
            = some (optimise_loop genStep timeUp gensLeft gen pop hist).1 ∧
        (∀ x ∈ (optimise_loop genStep timeUp gensLeft gen pop hist).1,
            evaluated x) ∧
        (c < gensLeft → c ≠ 0 ∧ timeUp (gen + c - 1) = true)
  | 0, gen, pop, hist, hlast, hev =>
      ⟨0, Nat.le_refl 0, by simp [optimise_loop, gen_trace],
        by simpa [optimise_loop] using hlast,
        by simpa [optimise_loop] using hev, by omega⟩
  | gensLeft + 1, gen, pop, hist, hlast, hev => by
      by_cases ht : timeUp gen = true
      · refine ⟨1, by omega, ?_, ?_, ?_, ?_⟩
        · simp [optimise_loop, ht, gen_trace]
        · simp [optimise_loop, ht]
        · intro x hx
          simp only [optimise_loop, ht, if_true] at hx
          exact hstep gen pop hev x hx
        · intro _
          exact ⟨one_ne_zero, by simpa using ht⟩
      · have hlast2 : (hist ++ [genStep gen pop]).getLast?
            = some (genStep gen pop) := by simp
        have hev2 : ∀ x ∈ genStep gen pop, evaluated x := hstep gen pop hev
        obtain ⟨c, hc, h1, h2, h3, h4⟩ :=
          budget_checked_at_generation_boundary genStep timeUp evaluated hstep
            gensLeft (gen + 1) (genStep gen pop) (hist ++ [genStep gen pop])
            hlast2 hev2
        refine ⟨c + 1, by omega, ?_, ?_, ?_, ?_⟩
        · simp only [optimise_loop, ht, if_false, Bool.false_eq_true]
          rw [h1, gen_trace]
          simp
        · simpa [optimise_loop, ht] using h2
        · simpa [optimise_loop, ht] using h3
        · intro hlt
          have hcc := h4 (by omega)
          refine ⟨by omega, ?_⟩
          have harith : gen + (c + 1) - 1 = gen + 1 + c - 1 := by omega
          rw [harith]
          exact hcc.2

/-- Witness for C6: a two-generation budgeted run with an identity
generation step. -/
theorem budget_checked_at_generation_boundary_witness :
    ∃ c ≤ 2,
      (optimise_loop (fun _ p => p) (fun _ => true) 2 0
          [(⟨1, 1⟩ : Individual)] [[⟨1, 1⟩]]).2
          = [[⟨1, 1⟩]] ++ gen_trace (fun _ p => p) c 0 [⟨1, 1⟩] ∧
      (optimise_loop (fun _ p => p) (fun _ => true) 2 0
          [(⟨1, 1⟩ : Individual)] [[⟨1, 1⟩]]).2.getLast?
          = some (optimise_loop (fun _ p => p) (fun _ => true) 2 0
              [(⟨1, 1⟩ : Individual)] [[⟨1, 1⟩]]).1 ∧
      (∀ x ∈ (optimise_loop (fun _ p => p) (fun _ => true) 2 0
          [(⟨1, 1⟩ : Individual)] [[⟨1, 1⟩]]).1, True) ∧
      (c < 2 → c ≠ 0 ∧ (fun _ : ℕ => true) (0 + c - 1) = true) :=
  budget_checked_at_generation_boundary (fun _ p => p) (fun _ => true)
    (fun _ => True) (fun _ _ h x hx => h x hx) 2 0
    [(⟨1, 1⟩ : Individual)] [[(⟨1, 1⟩ : Individual)]]
    (by simp) (fun _ _ => trivial)

/-- Helper: the fold underlying `pyMinBy` returns the first element
attaining the minimal key — the list splits around the result, every element
before it has a strictly larger key, and no element has a smaller key. -/
theorem foldl_min_first {α β : Type} [LinearOrder β] (f : α → β) :
    ∀ (xs : List α) (x : α),
      ∃ l1 l2,
        x :: xs
            = l1 ++ (xs.foldl (fun acc y => if f y < f acc then y else acc) x) :: l2 ∧
        (∀ y ∈ l1,
          f (xs.foldl (fun acc y => if f y < f acc then y else acc) x) < f y) ∧
        (∀ y ∈ x :: xs,
          f (xs.foldl (fun acc y => if f y < f acc then y else acc) x) ≤ f y)
  | [], x => ⟨[], [], rfl, by simp, by simp⟩
  | y :: ys, x => by
      by_cases hyx : f y < f x
      · have hfold : (y :: ys).foldl (fun acc z => if f z < f acc then z else acc) x
            = ys.foldl (fun acc z => if f z < f acc then z else acc) y := by
          simp [hyx]
        obtain ⟨l1, l2, hsplit, hgt, hle⟩ := foldl_min_first f ys y
        rw [hfold]
        refine ⟨x :: l1, l2, ?_, ?_, ?_⟩
        · rw [List.cons_append, ← hsplit]
        · intro z hz
          rcases List.mem_cons.mp hz with rfl | hz1
          · exact lt_of_le_of_lt (hle y (List.mem_cons_self y ys)) hyx
          · exact hgt z hz1
        · intro z hz
          rcases List.mem_cons.mp hz with rfl | hz1
          · exact le_of_lt (lt_of_le_of_lt (hle y (List.mem_cons_self y ys)) hyx)
          · exact hle z hz1
      · have hfold : (y :: ys).foldl (fun acc z => if f z < f acc then z else acc) x
            = ys.foldl (fun acc z => if f z < f acc then z else acc) x := by
          simp [hyx]
        obtain ⟨l1, l2, hsplit, hgt, hle⟩ := foldl_min_first f ys x
        rw [hfold]
        cases l1 with
        | nil =>
            simp only [List.nil_append] at hsplit
            have hx : x = ys.foldl (fun acc z => if f z < f acc then z else acc) x :=
              (List.cons.injEq _ _ _ _).mp hsplit |>.1
            refine ⟨[], y :: ys, ?_, by simp, ?_⟩
            · rw [List.nil_append, ← hx]
            · intro z hz
              rcases List.mem_cons.mp hz with rfl | hz1
              · exact le_of_eq (congrArg f hx.symm)
              · rcases List.mem_cons.mp hz1 with rfl | hz2
                · calc f (ys.foldl (fun acc w => if f w < f acc then w else acc) x)
                        ≤ f x := hle x (List.mem_cons_self x ys)
                    _ ≤ f z := not_lt.mp hyx
                · exact hle z (List.mem_cons_of_mem x hz2)
        | cons a l1t =>
            rw [List.cons_append] at hsplit
            have ha : x = a := ((List.cons.injEq _ _ _ _).mp hsplit).1
            have hys : ys = l1t
                ++ (ys.foldl (fun acc z => if f z < f acc then z else acc) x) :: l2 :=
              ((List.cons.injEq _ _ _ _).mp hsplit).2
            have hmx : f (ys.foldl (fun acc z => if f z < f acc then z else acc) x)
                < f x := by
              have hga := hgt a (List.mem_cons_self a l1t)
              rw [← ha] at hga
              exact hga
            refine ⟨x :: y :: l1t, l2, ?_, ?_, ?_⟩
            · rw [List.cons_append, List.cons_append, ← hys]
            · intro z hz
              rcases List.mem_cons.mp hz with rfl | hz1
              · exact hmx
              · rcases List.mem_cons.mp hz1 with rfl | hz2
                · exact lt_of_lt_of_le hmx (not_lt.mp hyx)
                · exact hgt z (ha ▸ List.mem_cons_of_mem a hz2)
            · intro z hz
              rcases List.mem_cons.mp hz with rfl | hz1
              · exact le_of_lt hmx
              · rcases List.mem_cons.mp hz1 with rfl | hz2
                · exact le_of_lt (lt_of_lt_of_le hmx (not_lt.mp hyx))
                · exact hle z (List.mem_cons_of_mem x hz2)

/-- Helper: `pyMinBy` on a nonempty list yields the first minimal element. -/
theorem pyMinBy_spec {α β : Type} [LinearOrder β] (f : α → β) (x : α)
    (xs : List α) :
    ∃ m l1 l2, pyMinBy f (x :: xs) = some m ∧ x :: xs = l1 ++ m :: l2 ∧
      (∀ y ∈ l1, f m < f y) ∧ (∀ y ∈ x :: xs, f m ≤ f y) := by
  obtain ⟨l1, l2, hsplit, hgt, hle⟩ := foldl_min_first f xs x
  exact ⟨_, l1, l2, rfl, hsplit, hgt, hle⟩

/-- Helper: the head of the stable argsort is an index of the minimal key,
every index strictly before it carries a strictly larger key, and the tail
holds every other index. -/
theorem argsort_head_spec (keys : List ℚ) (hk : keys ≠ []) :
    ∃ h t, argsort keys = h :: t ∧ h < keys.length ∧
      (∀ j, j < keys.length → keys.getD h 0 ≤ keys.getD j 0) ∧
      (∀ j, j < h → keys.getD h 0 < keys.getD j 0) ∧
      (∀ j, j < keys.length → j ≠ h → j ∈ t) := by
  have hperm : List.Perm (argsort keys) (List.range keys.length) :=
    List.perm_insertionSort _ _
  have hsorted : List.Sorted (keyRank keys) (argsort keys) :=
    List.sorted_insertionSort _ _
  have hlen : (argsort keys).length = keys.length := by
    simpa using hperm.length_eq
  have hklen : 0 < keys.length := List.length_pos.mpr hk
  obtain ⟨h, t, hht⟩ : ∃ h t, argsort keys = h :: t := by
    cases hcase : argsort keys with
    | nil => rw [hcase] at hlen; simp at hlen; omega
    | cons a l => exact ⟨a, l, rfl⟩
  have hrank : ∀ j, j < keys.length → keyRank keys h j := by
    intro j hj
    have hjmem : j ∈ argsort keys := hperm.mem_iff.mpr (List.mem_range.mpr hj)
    rw [hht] at hjmem
    rcases List.mem_cons.mp hjmem with rfl | hjt
    · exact Or.inr ⟨rfl, Nat.le_refl j⟩
    · have hs := hsorted
      rw [hht] at hs
      exact (List.sorted_cons.mp hs).1 j hjt
  have hhlt : h < keys.length := by
    have : h ∈ List.range keys.length :=
      hperm.mem_iff.mp (by rw [hht]; exact List.mem_cons_self h t)
    simpa using this
  refine ⟨h, t, hht, hhlt, ?_, ?_, ?_⟩
  · intro j hj
    rcases hrank j hj with hlt | ⟨heq, -⟩
    · exact le_of_lt hlt
    · exact le_of_eq heq
  · intro j hjh
    have hj : j < keys.length := lt_trans hjh hhlt
    rcases hrank j hj with hlt | ⟨-, hle⟩
    · exact hlt
    · omega
  · intro j hj hne
    have hjmem : j ∈ argsort keys := hperm.mem_iff.mpr (List.mem_range.mpr hj)
    rw [hht] at hjmem
    rcases List.mem_cons.mp hjmem with rfl | hjt
    · exact absurd rfl hne
    · exact hjt

/-- Helper: reading the fitness keys of a population at a valid index. -/
theorem fitness_getD (pop : List Individual) (j : ℕ) (hj : j < pop.length) :
    (pop.map (fun ind => ind.fitness)).getD j 0 = (pop.get ⟨j, hj⟩).fitness := by
  rw [List.getD_eq_getElem?_getD, List.getElem?_map,
    List.getElem?_eq_getElem hj]
  rfl

/-- Helper: membership of the simpler-equivalents association list, for an
arbitrary index order. -/
theorem mem_simpler_equivalents_with (sort_inds : List ℕ)
    (pop : List Individual) (best_ind : Individual) (p : ℕ × ℕ) :
    p ∈ simpler_equivalents_with sort_inds pop best_ind ↔
      p.1 ∈ sort_inds.tail ∧
      ∃ hlt : p.1 < pop.length,
        best_ind.fitness = (pop.get ⟨p.1, hlt⟩).fitness ∧
        (pop.get ⟨p.1, hlt⟩).numNodes < best_ind.numNodes ∧
        p.2 = (pop.get ⟨p.1, hlt⟩).numNodes := by
  unfold simpler_equivalents_with
  rw [List.mem_filterMap]
  obtain ⟨i, v⟩ := p
  constructor
  · rintro ⟨j, hj, hf⟩
    cases hgj : pop[j]? with
    | none =>
        rw [hgj] at hf
        dsimp only at hf
        cases hf
    | some ind =>
        rw [hgj] at hf
        dsimp only at hf
        by_cases hcond : is_equal_fitness best_ind.fitness ind.fitness ∧
            ind.numNodes < best_ind.numNodes
        · rw [if_pos hcond] at hf
          have hji : j = i ∧ ind.numNodes = v := by
            injection hf with hf2
            exact ⟨congrArg Prod.fst hf2, congrArg Prod.snd hf2⟩
          obtain ⟨rfl, hnv⟩ := hji
          have hlt : j < pop.length := (List.getElem?_eq_some_iff.mp hgj).choose
          have hind : pop.get ⟨j, hlt⟩ = ind := by
            have hspec := (List.getElem?_eq_some_iff.mp hgj).choose_spec
            simpa [List.get_eq_getElem] using hspec
          refine ⟨hj, hlt, ?_, ?_, ?_⟩
          · rw [hind]
            exact of_decide_eq_true hcond.1
          · rw [hind]; exact hcond.2
          · rw [hind]; exact hnv.symm
        · rw [if_neg hcond] at hf
          cases hf
  · rintro ⟨hmem, hlt, heq, hnodes, hval⟩
    refine ⟨i, hmem, ?_⟩
    have hgi : pop[i]? = some (pop.get ⟨i, hlt⟩) := by
      rw [List.getElem?_eq_getElem hlt]
      rfl
    rw [hgi]
    dsimp only
    rw [if_pos ⟨decide_eq_true heq, hnodes⟩]
    refine congrArg some ?_
    have hv : v = (pop.get ⟨i, hlt⟩).numNodes := by simpa using hval
    rw [hv]

/-- Helper: `mem_simpler_equivalents_with` at the stable tie order. -/
theorem mem_simpler_equivalents (pop : List Individual) (best_ind : Individual)
    (p : ℕ × ℕ) :
    p ∈ simpler_equivalents_of_best_ind pop best_ind ↔
      p.1 ∈ (argsort (pop.map (fun ind => ind.fitness))).tail ∧
      ∃ hlt : p.1 < pop.length,
        best_ind.fitness = (pop.get ⟨p.1, hlt⟩).fitness ∧
        (pop.get ⟨p.1, hlt⟩).numNodes < best_ind.numNodes ∧
        p.2 = (pop.get ⟨p.1, hlt⟩).numNodes := by
  unfold simpler_equivalents_of_best_ind
  exact mem_simpler_equivalents_with _ pop best_ind p

/-- Helper: `pyMinBy` on a nonempty list, packaged as in `pyMinBy_spec`. -/
theorem pyMinBy_spec_ne {α β : Type} [LinearOrder β] (f : α → β) (l : List α)
    (h : l ≠ []) :
    ∃ m l1 l2, pyMinBy f l = some m ∧ l = l1 ++ m :: l2 ∧
      (∀ y ∈ l1, f m < f y) ∧ (∀ y ∈ l, f m ≤ f y) := by
  cases l with
  | nil => exact absurd rfl h
  | cons x xs => exact pyMinBy_spec f x xs

/-- Helper: the result of `pyMinBy` sits at an index before which every key
is strictly larger, and no key anywhere is smaller. -/
theorem pyMinBy_first_index {α β : Type} [LinearOrder β] (f : α → β)
    (l : List α) (m : α) (hl : pyMinBy f l = some m) :
    ∃ i : Fin l.length, l.get i = m ∧
      (∀ j : Fin l.length, f m ≤ f (l.get j)) ∧
      (∀ j : Fin l.length, (j : ℕ) < (i : ℕ) → f m < f (l.get j)) ∧
      (∀ y ∈ l, f m ≤ f y) := by
  have hne : l ≠ [] := by
    intro hcase
    rw [hcase] at hl
    simp [pyMinBy] at hl
  obtain ⟨m2, l1, l2, hpm2, hsplit, hgt, hle⟩ := pyMinBy_spec_ne f l hne
  have hm2 : m2 = m := by
    rw [hpm2] at hl
    injection hl
  subst hm2
  subst hsplit
  have hi : l1.length < (l1 ++ m2 :: l2).length := by simp
  refine ⟨⟨l1.length, hi⟩, ?_, ?_, ?_, hle⟩
  · rw [List.get_eq_getElem]
    rw [List.getElem_append_right (Nat.le_refl l1.length)]
    simp
  · intro j
    exact hle _ (List.get_mem _ _ _)
  · intro j hj
    have hjl : (j : ℕ) < l1.length := hj
    have hgetj : (l1 ++ m2 :: l2).get j = l1.get ⟨j, hjl⟩ := by
      rw [List.get_eq_getElem, List.get_eq_getElem]
      exact List.getElem_append_left hjl
    rw [hgetj]
    exact hgt _ (List.get_mem _ _ _)

/-- Helper: unfolding `get_best_individual_with` once the minimum is
known. -/
theorem get_best_individual_with_eq (sort_inds : List ℕ)
    (pop : List Individual) (m : Individual)
    (hpm : pyMinBy (fun ind => ind.fitness) pop = some m) :
    get_best_individual_with sort_inds pop =
      match pyMinBy (fun p : ℕ × ℕ => p.2)
          (simpler_equivalents_with sort_inds pop m) with
      | none => some m
      | some p => pop[p.1]? := by
  unfold get_best_individual_with
  rw [hpm]

/-- Helper: unfolding `get_best_individual` once the minimum is known. -/
theorem get_best_individual_eq (pop : List Individual) (m : Individual)
    (hpm : pyMinBy (fun ind => ind.fitness) pop = some m) :
    get_best_individual pop =
      match pyMinBy (fun p : ℕ × ℕ => p.2)
          (simpler_equivalents_of_best_ind pop m) with
      | none => some m
      | some p => pop[p.1]? := by
  unfold get_best_individual get_best_individual_with
    simpler_equivalents_of_best_ind
  rw [hpm]

/-- Helper: under the stable tie order (`argsort`, which puts the first
index of the minimal fitness at the head, so the `[1:]` slice drops exactly
the individual Python's `min` already returned), `get_best_individual`
returns an individual of exactly minimal fitness with the fewest nodes
among the individuals whose fitness exactly equals that minimum. -/
theorem get_best_individual_stable_spec (pop : List Individual)
    (hne : pop ≠ []) :
    ∃ r, get_best_individual pop = some r ∧ r ∈ pop ∧
      (∀ ind ∈ pop, r.fitness ≤ ind.fitness) ∧
      (∀ ind ∈ pop, ind.fitness = r.fitness → r.numNodes ≤ ind.numNodes) := by
  obtain ⟨m, hpm⟩ : ∃ m, pyMinBy (fun ind => ind.fitness) pop = some m := by
    cases pop with
    | nil => exact absurd rfl hne
    | cons x xs => exact ⟨_, rfl⟩
  obtain ⟨i0, hgeti0, hleI, hfirstI, hleM⟩ :=
    pyMinBy_first_index (fun ind => ind.fitness) pop m hpm
  have hkeysne : pop.map (fun ind => ind.fitness) ≠ [] := by
    cases pop with
    | nil => exact absurd rfl hne
    | cons x xs => simp
  obtain ⟨h, t, hht, hhlt, hmin, hfirst, htail⟩ :=
    argsort_head_spec (pop.map (fun ind => ind.fitness)) hkeysne
  have hkl : (pop.map (fun ind => ind.fitness)).length = pop.length :=
    List.length_map pop _
  rw [hkl] at hhlt
  have hkeyF : ∀ j : Fin pop.length,
      (pop.map (fun ind => ind.fitness)).getD (j : ℕ) 0 = (pop.get j).fitness := by
    intro j
    rw [fitness_getD pop (j : ℕ) j.isLt]
  have hhi0 : h = (i0 : ℕ) := by
    rcases Nat.lt_trichotomy h (i0 : ℕ) with hlt | heq | hgt2
    · exfalso
      have h1 : m.fitness < (pop.get ⟨h, hhlt⟩).fitness := hfirstI ⟨h, hhlt⟩ hlt
      have h2 : (pop.map (fun ind => ind.fitness)).getD h 0
          ≤ (pop.map (fun ind => ind.fitness)).getD (i0 : ℕ) 0 :=
        hmin (i0 : ℕ) (by rw [hkl]; exact i0.isLt)
      rw [hkeyF ⟨h, hhlt⟩, hkeyF i0, hgeti0] at h2
      exact absurd (lt_of_lt_of_le h1 h2) (lt_irrefl _)
    · exact heq
    · exfalso
      have h1 : (pop.map (fun ind => ind.fitness)).getD h 0
          < (pop.map (fun ind => ind.fitness)).getD (i0 : ℕ) 0 :=
        hfirst (i0 : ℕ) hgt2
      have h2 : m.fitness ≤ (pop.get ⟨h, hhlt⟩).fitness := hleI ⟨h, hhlt⟩
      rw [hkeyF ⟨h, hhlt⟩, hkeyF i0, hgeti0] at h1
      exact absurd (lt_of_le_of_lt h2 h1) (lt_irrefl _)
  have hgeth : pop.get ⟨h, hhlt⟩ = m := by
    have : (⟨h, hhlt⟩ : Fin pop.length) = i0 := Fin.ext hhi0
    rw [this]
    exact hgeti0
  have htt : (argsort (pop.map (fun ind => ind.fitness))).tail = t := by
    rw [hht, List.tail_cons]
  have hmmem : m ∈ pop := by
    rw [← hgeti0]
    exact List.get_mem _ _ _
  cases hE : pyMinBy (fun p : ℕ × ℕ => p.2)
      (simpler_equivalents_of_best_ind pop m) with
  | none =>
      have hEnil : simpler_equivalents_of_best_ind pop m = [] := by
        cases hcE : simpler_equivalents_of_best_ind pop m with
        | nil => rfl
        | cons a as =>
            rw [hcE] at hE
            simp [pyMinBy] at hE
      refine ⟨m, ?_, hmmem, hleM, ?_⟩
      · rw [get_best_individual_eq pop m hpm, hE]
      · intro ind hind hfit
        by_contra hno
        push_neg at hno
        obtain ⟨j, hj, hgetj⟩ := List.mem_iff_getElem.mp hind
        have hgj : pop.get ⟨j, hj⟩ = ind := hgetj
        by_cases hjh : j = h
        · subst hjh
          have hindm : ind = m := by
            rw [← hgj]
            exact hgeth
          rw [hindm] at hno
          exact absurd hno (lt_irrefl _)
        · have hjt : j ∈ t := htail j (by rw [hkl]; exact hj) hjh
          have hinE : ((j, ind.numNodes) : ℕ × ℕ)
              ∈ simpler_equivalents_of_best_ind pop m := by
            rw [mem_simpler_equivalents]
            refine ⟨by rw [htt]; exact hjt, hj, ?_, ?_, ?_⟩
            · rw [hgj]
              exact hfit.symm
            · rw [hgj]
              exact hno
            · rw [hgj]
          rw [hEnil] at hinE
          simp at hinE
  | some q =>
      have hEne : simpler_equivalents_of_best_ind pop m ≠ [] := by
        intro hEnil
        rw [hEnil] at hE
        simp [pyMinBy] at hE
      obtain ⟨q2, l1q, l2q, hpmq, hsplitq, hgtq, hleq⟩ :=
        pyMinBy_spec_ne (fun p : ℕ × ℕ => p.2)
          (simpler_equivalents_of_best_ind pop m) hEne
      have hq2 : q2 = q := by
        rw [hpmq] at hE
        injection hE
      subst hq2
      have hqmem : q2 ∈ simpler_equivalents_of_best_ind pop m := by
        rw [hsplitq]
        exact List.mem_append.mpr (Or.inr (List.mem_cons_self q2 l2q))
      obtain ⟨hqtail, hqlt, hqfit, hqnodes, hqval⟩ :=
        (mem_simpler_equivalents pop m q2).mp hqmem
      refine ⟨pop.get ⟨q2.1, hqlt⟩, ?_, List.get_mem _ _ _, ?_, ?_⟩
      · rw [get_best_individual_eq pop m hpm, hE]
        dsimp only
        rw [List.getElem?_eq_getElem hqlt]
        rfl
      · intro ind hind
        rw [← hqfit]
        exact hleM ind hind
      · intro ind hind hfit
        have hfim : ind.fitness = m.fitness := hfit.trans hqfit.symm
        obtain ⟨j, hj, hgetj⟩ := List.mem_iff_getElem.mp hind
        have hgj : pop.get ⟨j, hj⟩ = ind := hgetj
        by_cases hjh : j = h
        · subst hjh
          have hindm : ind = m := by
            rw [← hgj]
            exact hgeth
          rw [hindm]
          exact le_of_lt hqnodes
        · by_cases hless : ind.numNodes < m.numNodes
          · have hjt : j ∈ t := htail j (by rw [hkl]; exact hj) hjh
            have hinE : ((j, ind.numNodes) : ℕ × ℕ)
                ∈ simpler_equivalents_of_best_ind pop m := by
              rw [mem_simpler_equivalents]
              refine ⟨by rw [htt]; exact hjt, hj, ?_, ?_, ?_⟩
              · rw [hgj]
                exact hfim.symm
              · rw [hgj]
                exact hless
              · rw [hgj]
            have hql := hleq (j, ind.numNodes) hinE
            rw [← hqval]
            exact hql
          · have h1 : m.numNodes ≤ ind.numNodes := not_lt.mp hless
            have h2 : (pop.get ⟨q2.1, hqlt⟩).numNodes < m.numNodes := hqnodes
            omega

/-- Helper: for every index order whatsoever — so in particular for every
legal `np.argsort` output — `get_best_individual_with` returns a member of
the population whose fitness is exactly the minimum: the equal-fitness
filter in `simpler_equivalents_with` means no tie order can surface an
individual of strictly worse fitness. -/
theorem get_best_individual_with_min_fitness (sort_inds : List ℕ)
    (pop : List Individual) (hne : pop ≠ []) :
    ∃ r, get_best_individual_with sort_inds pop = some r ∧ r ∈ pop ∧
      ∀ ind ∈ pop, r.fitness ≤ ind.fitness := by
  obtain ⟨m, l1, l2, hpm, hsplit, -, hleM⟩ :=
    pyMinBy_spec_ne (fun ind => ind.fitness) pop hne
  have hmmem : m ∈ pop := by
    rw [hsplit]
    exact List.mem_append.mpr (Or.inr (List.mem_cons_self m l2))
  cases hE : pyMinBy (fun p : ℕ × ℕ => p.2)
      (simpler_equivalents_with sort_inds pop m) with
  | none =>
      refine ⟨m, ?_, hmmem, hleM⟩
      rw [get_best_individual_with_eq sort_inds pop m hpm, hE]
  | some q =>
      have hEne : simpler_equivalents_with sort_inds pop m ≠ [] := by
        intro hnil
        rw [hnil] at hE
        simp [pyMinBy] at hE
      obtain ⟨q2, l1q, l2q, hpmq, hsplitq, -, -⟩ :=
        pyMinBy_spec_ne (fun p : ℕ × ℕ => p.2)
          (simpler_equivalents_with sort_inds pop m) hEne
      have hq2 : q2 = q := by
        rw [hpmq] at hE
        injection hE
      subst hq2
      have hqmem : q2 ∈ simpler_equivalents_with sort_inds pop m := by
        rw [hsplitq]
        exact List.mem_append.mpr (Or.inr (List.mem_cons_self q2 l2q))
      obtain ⟨-, hqlt, hqfit, -, -⟩ :=
        (mem_simpler_equivalents_with sort_inds pop m q2).mp hqmem
      refine ⟨pop.get ⟨q2.1, hqlt⟩, ?_, List.get_mem _ _ _, ?_⟩
      · rw [get_best_individual_with_eq sort_inds pop m hpm, hE]
        dsimp only
        rw [List.getElem?_eq_getElem hqlt]
        rfl
      · intro ind hind
        rw [← hqfit]
        exact hleM ind hind

/-- Counterexample to C5 as stated: on the population of individuals with
(fitness, nodes) = (1, 5), (1, 2), (1, 3), the index list [1, 0, 2] is a
legal output of `np.argsort` on the fitness keys (a permutation of the
indices with non-decreasing keys — numpy's default quicksort kind does not
promise any tie order), yet under it `get_best_individual` returns the
3-node individual while the 2-node individual of exactly equal minimal
fitness is in the population: the `[1:]` slice dropped index 1, the
fewest-nodes tie, so the tie-break does not return a fewest-nodes
individual. -/
theorem argsort_tie_order_breaks_tie_break :
    IsArgsortOf
        (([⟨1, 5⟩, ⟨1, 2⟩, ⟨1, 3⟩] : List Individual).map
          (fun ind => ind.fitness)) [1, 0, 2] ∧
    get_best_individual_with [1, 0, 2] [⟨1, 5⟩, ⟨1, 2⟩, ⟨1, 3⟩]
        = some ⟨1, 3⟩ ∧
    (⟨1, 2⟩ : Individual) ∈ ([⟨1, 5⟩, ⟨1, 2⟩, ⟨1, 3⟩] : List Individual) ∧
    (⟨1, 2⟩ : Individual).fitness = (⟨1, 3⟩ : Individual).fitness ∧
    (⟨1, 2⟩ : Individual).numNodes < (⟨1, 3⟩ : Individual).numNodes := by
  refine ⟨⟨?_, ?_⟩, ?_, ?_, ?_, ?_⟩ <;> decide

/-- C5 (amended): for every nonempty population and every index order
satisfying `np.argsort`'s documented contract, `get_best_individual`
returns a member of the population whose fitness exactly equals the minimum
fitness — the node-count tie-break never selects an individual of strictly
worse fitness; the fewest-nodes-among-exact-ties guarantee additionally
holds under the stable tie order (first minimal index first), which numpy's
default quicksort kind does not promise. -/
theorem get_best_individual_tie_break_amended (pop : List Individual)
    (hne : pop ≠ []) :
    (∀ sort_inds : List ℕ,
      IsArgsortOf (pop.map (fun ind => ind.fitness)) sort_inds →
      ∃ r, get_best_individual_with sort_inds pop = some r ∧ r ∈ pop ∧
        ∀ ind ∈ pop, r.fitness ≤ ind.fitness) ∧
    (∃ r, get_best_individual pop = some r ∧ r ∈ pop ∧
      (∀ ind ∈ pop, r.fitness ≤ ind.fitness) ∧
      (∀ ind ∈ pop, ind.fitness = r.fitness → r.numNodes ≤ ind.numNodes)) :=
  ⟨fun sort_inds _ => get_best_individual_with_min_fitness sort_inds pop hne,
    get_best_individual_stable_spec pop hne⟩

/-- Witness for the amended C5: a population with a fitness tie (individuals
of fitness 1 with 5 and 2 nodes, and one of fitness 2 with 1 node). -/
theorem get_best_individual_tie_break_amended_witness :
    (∀ sort_inds : List ℕ,
      IsArgsortOf (([⟨1, 5⟩, ⟨1, 2⟩, ⟨2, 1⟩] : List Individual).map
        (fun ind => ind.fitness)) sort_inds →
      ∃ r, get_best_individual_with sort_inds [⟨1, 5⟩, ⟨1, 2⟩, ⟨2, 1⟩]
          = some r ∧
        r ∈ ([⟨1, 5⟩, ⟨1, 2⟩, ⟨2, 1⟩] : List Individual) ∧
        ∀ ind ∈ ([⟨1, 5⟩, ⟨1, 2⟩, ⟨2, 1⟩] : List Individual),
          r.fitness ≤ ind.fitness) ∧
    (∃ r, get_best_individual [⟨1, 5⟩, ⟨1, 2⟩, ⟨2, 1⟩] = some r ∧
      r ∈ ([⟨1, 5⟩, ⟨1, 2⟩, ⟨2, 1⟩] : List Individual) ∧
      (∀ ind ∈ ([⟨1, 5⟩, ⟨1, 2⟩, ⟨2, 1⟩] : List Individual),
        r.fitness ≤ ind.fitness) ∧
      (∀ ind ∈ ([⟨1, 5⟩, ⟨1, 2⟩, ⟨2, 1⟩] : List Individual),
        ind.fitness = r.fitness → r.numNodes ≤ ind.numNodes)) :=
  get_best_individual_tie_break_amended [⟨1, 5⟩, ⟨1, 2⟩, ⟨2, 1⟩] (by decide)

/-- C4: in single-objective mode with elitism (population size above one),
the best fitness of the population formed by inheritance plus the elitism
append of the previous best is never numerically greater than the best
fitness of the previous population, whatever the inheritance operator
returned. -/
theorem elitism_best_fitness_monotone (pop_size : ℕ) (hps : 1 < pop_size)
    (pop inherited : List Individual) (hne : pop ≠ [])
    (prev_best : Individual)
    (hprev : get_best_individual pop = some prev_best)
    (f1 f2 : ℚ) (h1 : bestFitness pop = some f1)
    (h2 : bestFitness
        (population_after_inheritance false pop_size inherited prev_best)
        = some f2) :
    f2 ≤ f1 := by
  obtain ⟨r, hres, hrmem, hrle, -⟩ := get_best_individual_stable_spec pop hne
  have hrp : r = prev_best := by
    rw [hres] at hprev
    injection hprev
  have hf1 : f1 = prev_best.fitness := by
    unfold bestFitness at h1
    rw [hres] at h1
    simp only [Option.map_some', Option.some.injEq] at h1
    rw [← h1, hrp]
  have hnew : population_after_inheritance false pop_size inherited prev_best
      = inherited ++ [prev_best] := by
    unfold population_after_inheritance
    simp [with_elitism, hps]
  have hnewne : inherited ++ [prev_best] ≠ [] := by simp
  obtain ⟨r2, hres2, hr2mem, hr2le, -⟩ :=
    get_best_individual_stable_spec (inherited ++ [prev_best]) hnewne
  have hf2 : f2 = r2.fitness := by
    unfold bestFitness at h2
    rw [hnew, hres2] at h2
    simp only [Option.map_some', Option.some.injEq] at h2
    exact h2.symm
  have hpb : prev_best ∈ inherited ++ [prev_best] := by simp
  calc f2 = r2.fitness := hf2
    _ ≤ prev_best.fitness := hr2le prev_best hpb
    _ = f1 := hf1.symm

/-- Witness for C4: previous population of best fitness 1; inheritance
returns an individual of fitness 2, elitism appends the previous best. -/
theorem elitism_best_fitness_monotone_witness : (1 : ℚ) ≤ (1 : ℚ) :=
  elitism_best_fitness_monotone 2 (by decide) [⟨1, 1⟩] [⟨2, 3⟩] (by decide)
    ⟨1, 1⟩ (by decide) 1 1 (by decide) (by decide)
